import Mathlib

/-!
# Verification of the symbolic tile analysis and convolution group decomposition

This development embeds, in Lean, the data model and operations of XLA's
`SymbolicTileAnalysis` (GPU model) and the group decomposition of the CPU
runtime convolution kernels (`EigenConv2D` / `EigenConv3D`), and proves the
documented properties about them.

The repository excerpt contains the full header of `SymbolicTileAnalysis`
(`xla/service/gpu/model/symbolic_tile_analysis.h`) but not the corresponding
`.cc` implementation, so the algorithmic bodies below are modelled from the
design specification; each such definition carries a doc comment starting
with `Modelled from the spec:`. The convolution kernels are embedded directly
from `xla/backends/cpu/runtime/convolution_thunk_internal.h`.
-/

namespace XlaGpu

/-! ## Affine expressions and constraint expressions

Modelled from the spec: the affine-algebra engine is an external collaborator;
constraints are represented as a disjunction of conjunctions of affine
(in)equalities over the tile-size parameters, with three-valued evaluation.
-/

/-- A linear (affine) expression over tile-size parameters `s0, s1, ...`:
`coeffs[0] * s0 + coeffs[1] * s1 + ... + const`. -/
structure AffineExpr where
  coeffs : List Int
  const : Int
deriving DecidableEq, Repr

/-- Evaluate a coefficient list against a valuation of the variables. -/
def evalCoeffs : List Int → (Nat → Int) → Int
  | [], _ => 0
  | c :: cs, v => c * v 0 + evalCoeffs cs (fun i => v (i + 1))

/-- Evaluate an affine expression under a total valuation of the parameters. -/
def AffineExpr.eval (e : AffineExpr) (v : Nat → Int) : Int :=
  evalCoeffs e.coeffs v + e.const

/-- The expression `a * s_i + c`. -/
def singleVar (i : Nat) (a : Int) (c : Int) : AffineExpr :=
  ⟨List.replicate i 0 ++ [a], c⟩

/-- `true` when every variable the expression actually mentions (nonzero
coefficient) has index `< n`, i.e. substituting the first `n` parameters
fully reduces the expression to a constant. -/
def AffineExpr.varsBelow (e : AffineExpr) (n : Nat) : Bool :=
  (e.coeffs.drop n).all (· == 0)

/-- Kind of an atomic constraint: `expr ≥ 0` or `expr = 0`. -/
inductive CmpKind where
  | geZero
  | eqZero
deriving DecidableEq, Repr

/-- An atomic affine inequality or equality over the tile-size parameters. -/
structure ConstraintAtom where
  expr : AffineExpr
  kind : CmpKind
deriving DecidableEq, Repr

/-- Truth of an atom under a total valuation. -/
def ConstraintAtom.holds (a : ConstraintAtom) (v : Nat → Int) : Bool :=
  match a.kind with
  | .geZero => decide (0 ≤ a.expr.eval v)
  | .eqZero => decide (a.expr.eval v = 0)

/-- A conjunction of atomic constraints. -/
structure ConjointConstraints where
  atoms : List ConstraintAtom
deriving DecidableEq, Repr

/-- Truth of a conjunction under a total valuation. -/
def ConjointConstraints.holds (c : ConjointConstraints) (v : Nat → Int) : Bool :=
  c.atoms.all (fun a => a.holds v)

/-- A constraint expression in disjunctive normal form: an OR of ANDs of
affine (in)equalities over the tile-size parameters. -/
structure ConstraintExpression where
  disjuncts : List ConjointConstraints
deriving DecidableEq, Repr

/-- Truth of a constraint expression under a total valuation. -/
def ConstraintExpression.holds (ce : ConstraintExpression) (v : Nat → Int) : Bool :=
  ce.disjuncts.any (fun c => c.holds v)

/-- The always-satisfied constraint (one empty conjunction). -/
def ConstraintExpression.alwaysSatisfied : ConstraintExpression := ⟨[⟨[]⟩]⟩

/-- Intersection (logical AND) of two constraint expressions, distributing the
AND over the two disjunctive normal forms. -/
def ConstraintExpression.and (x y : ConstraintExpression) : ConstraintExpression :=
  ⟨(x.disjuncts.map (fun ca => y.disjuncts.map (fun cb => ⟨ca.atoms ++ cb.atoms⟩))).flatten⟩

/-- Intersection of a list of constraint expressions. -/
def intersectAll (cs : List ConstraintExpression) : ConstraintExpression :=
  cs.foldr ConstraintExpression.and ConstraintExpression.alwaysSatisfied

/-- `true` when every atom of the constraint expression only mentions
parameters with index `< n`. -/
def ConstraintExpression.varsBelow (ce : ConstraintExpression) (n : Nat) : Bool :=
  ce.disjuncts.all (fun c => c.atoms.all (fun a => a.expr.varsBelow n))

/-- Three-valued evaluation of a constraint expression against a concrete
parameter list: `some true` / `some false` when every atom fully reduces to a
constant after substituting the parameters, `none` ("indeterminate") when some
atom still mentions a parameter that was not supplied. -/
def ConstraintExpression.evalPartial (ce : ConstraintExpression) (params : List Int) :
    Option Bool :=
  if ce.varsBelow params.length then
    some (ce.holds (fun i => params.getD i 0))
  else none

/-! ### Lemmas about the constraint algebra -/

theorem eval_singleVar (i : Nat) (a c : Int) (v : Nat → Int) :
    (singleVar i a c).eval v = a * v i + c := by
  induction i generalizing v with
  | zero =>
    show a * v 0 + evalCoeffs [] (fun j => v (j + 1)) + c = a * v 0 + c
    simp [evalCoeffs]
  | succ m ih =>
    have h := ih (fun j => v (j + 1))
    simp only [singleVar, AffineExpr.eval] at h
    show (0 : Int) * v 0 + evalCoeffs (List.replicate m 0 ++ [a]) (fun j => v (j + 1)) + c =
      a * v (m + 1) + c
    linarith [h]

theorem and_holds (x y : ConstraintExpression) (v : Nat → Int) :
    (x.and y).holds v = true ↔ (x.holds v = true ∧ y.holds v = true) := by
  simp only [ConstraintExpression.and, ConstraintExpression.holds, List.any_eq_true]
  constructor
  · rintro ⟨c, hc, hch⟩
    simp only [List.mem_flatten, List.mem_map] at hc
    obtain ⟨l, ⟨ca, hca, rfl⟩, hcl⟩ := hc
    simp only [List.mem_map] at hcl
    obtain ⟨cb, hcb, rfl⟩ := hcl
    simp only [ConjointConstraints.holds, List.all_append, Bool.and_eq_true] at hch
    exact ⟨⟨ca, hca, hch.1⟩, ⟨cb, hcb, hch.2⟩⟩
  · rintro ⟨⟨ca, hca, hcah⟩, ⟨cb, hcb, hcbh⟩⟩
    refine ⟨⟨ca.atoms ++ cb.atoms⟩, ?_, ?_⟩
    · simp only [List.mem_flatten, List.mem_map]
      exact ⟨_, ⟨ca, hca, rfl⟩, by simp only [List.mem_map]; exact ⟨cb, hcb, rfl⟩⟩
    · simp only [ConjointConstraints.holds, List.all_append, Bool.and_eq_true]
      exact ⟨hcah, hcbh⟩

theorem alwaysSatisfied_holds (v : Nat → Int) :
    ConstraintExpression.alwaysSatisfied.holds v = true := by
  simp [ConstraintExpression.alwaysSatisfied, ConstraintExpression.holds,
    ConjointConstraints.holds]

theorem intersectAll_holds (cs : List ConstraintExpression) (v : Nat → Int) :
    (intersectAll cs).holds v = true ↔ ∀ c ∈ cs, c.holds v = true := by
  induction cs with
  | nil => simp [intersectAll, alwaysSatisfied_holds]
  | cons c rest ih =>
    simp only [intersectAll, List.foldr_cons] at *
    rw [and_holds]
    simp only [ih, List.mem_cons]
    constructor
    · rintro ⟨h1, h2⟩ x hx
      rcases hx with rfl | hx
      · exact h1
      · exact h2 x hx
    · intro h
      exact ⟨h c (Or.inl rfl), fun x hx => h x (Or.inr hx)⟩

/-! ## The computation graph

Modelled from the spec: an `OperationNode` is a read-only node of the external
computation graph with an output shape (ordered sequence of dimension sizes)
and an operator kind (elementwise, reduce, reshape, broadcast, transpose, ...).
A closed subgraph with a single root is represented as the tree of access
paths from the root, which is exactly the per-path view the analysis stores. -/

/-- An operation node of the computation subgraph handed to the analysis.
Each constructor carries the node's own output shape first. -/
inductive HloOp where
  | parameter (shape : List Nat)
  | unaryElementwise (shape : List Nat) (operand : HloOp)
  | binaryElementwise (shape : List Nat) (lhs : HloOp) (rhs : HloOp)
  | broadcast (shape : List Nat) (dims : List Nat) (operand : HloOp)
  | transpose (shape : List Nat) (perm : List Nat) (operand : HloOp)
  | reshape (shape : List Nat) (operand : HloOp)
  | reduce (shape : List Nat) (reducedDims : List Nat) (operand : HloOp)
deriving DecidableEq, Repr

/-- The output shape of a node. -/
def HloOp.shape : HloOp → List Nat
  | .parameter s => s
  | .unaryElementwise s _ => s
  | .binaryElementwise s _ _ => s
  | .broadcast s _ _ => s
  | .transpose s _ _ => s
  | .reshape s _ => s
  | .reduce s _ _ => s

/-- A numeric tag for the operator kind (used as part of the content hash key
during materialization). -/
def HloOp.opKind : HloOp → Nat
  | .parameter _ => 0
  | .unaryElementwise _ _ => 1
  | .binaryElementwise _ _ _ => 2
  | .broadcast _ _ _ => 3
  | .transpose _ _ _ => 4
  | .reshape _ _ => 5
  | .reduce _ _ _ => 6

/-- Number of nodes in the access-path tree rooted at this node. -/
def HloOp.nodeSize : HloOp → Nat
  | .parameter _ => 1
  | .unaryElementwise _ o => o.nodeSize + 1
  | .binaryElementwise _ l r => l.nodeSize + r.nodeSize + 1
  | .broadcast _ _ o => o.nodeSize + 1
  | .transpose _ _ o => o.nodeSize + 1
  | .reshape _ o => o.nodeSize + 1
  | .reduce _ _ o => o.nodeSize + 1

/-- All nodes reachable from this node (itself included), one entry per
access path. -/
def HloOp.subNodes : HloOp → List HloOp
  | .parameter s => [.parameter s]
  | .unaryElementwise s o => .unaryElementwise s o :: o.subNodes
  | .binaryElementwise s l r => .binaryElementwise s l r :: (l.subNodes ++ r.subNodes)
  | .broadcast s d o => .broadcast s d o :: o.subNodes
  | .transpose s p o => .transpose s p o :: o.subNodes
  | .reshape s o => .reshape s o :: o.subNodes
  | .reduce s d o => .reduce s d o :: o.subNodes

/-- Modelled from the spec: the per-node check of whether the operator's
semantics can be expressed as an affine tile mapping. Elementwise operands
must match the output shape one-to-one; broadcast dimension lists must be
well-formed; transpose permutations must have the right length; a reshape is
affine-expressible in this model only when it leaves the shape unchanged
(any other reshape produces the unsupported-operator diagnostic); reductions
are always expressible (the reduced dimension takes the full extent). -/
def HloOp.supported : HloOp → Bool
  | .parameter _ => true
  | .unaryElementwise s o => decide (o.shape = s)
  | .binaryElementwise s l r => decide (l.shape = s ∧ r.shape = s)
  | .broadcast s dims o => decide (dims.length = o.shape.length ∧ ∀ d ∈ dims, d < s.length)
  | .transpose s perm o => decide (perm.length = s.length ∧ o.shape.length = s.length)
  | .reshape s o => decide (o.shape = s)
  | .reduce _ _ _ => true

/-! ## Symbolic tiles and construction

Modelled from the spec: a `SymbolicTile` belongs to one (node, access-path)
pair, holds a mapping from the tile-parameter vector to a concrete tile per
output dimension of the node, plus a constraint describing the parameter
vectors for which the mapping is well-formed. -/

/-- Symbolic tile size along one output dimension of a node: either tiled by
root tile parameter `i`, or the full (untiled) extent of the dimension. -/
inductive DimTile where
  | param (i : Nat)
  | full (extent : Nat)
deriving DecidableEq, Repr

/-- Constraint atoms contributed by one output dimension of extent `extent`:
a dimension tiled by parameter `i` requires `1 ≤ s_i` and `s_i ≤ extent`
(the tile must fit inside the node's true dimension extent); a full (untiled)
dimension of size `e` contributes the parameter-free consistency bound
`e ≤ extent` (the full input tile of the dimension — e.g. of a reduced
dimension — must itself fit the node's true extent). -/
def dimConstraintAtoms (extent : Nat) : DimTile → List ConstraintAtom
  | .param i =>
    [⟨singleVar i (-1) (extent : Int), .geZero⟩,
     ⟨singleVar i 1 (-1), .geZero⟩]
  | .full e => [⟨⟨[], (extent : Int) - (e : Int)⟩, .geZero⟩]

/-- The well-formedness constraint of one symbolic tile, as a single
conjunction over all of the node's output dimensions. -/
def tileConstraint (shape : List Nat) (dts : List DimTile) : ConstraintExpression :=
  ⟨[⟨(List.zipWith dimConstraintAtoms shape dts).flatten⟩]⟩

/-- A symbolic tile for one (node, access-path) pair: the node, the symbolic
tile size along each of its output dimensions, the positions (in the final
def-before-use list) of the tiles this tile depends on, and the tile's
well-formedness constraint. -/
structure SymbolicTiledHloInstruction where
  node : HloOp
  dimTiles : List DimTile
  operandPositions : List Nat
  constraint : ConstraintExpression
deriving DecidableEq, Repr

/-- Shift all dependency positions by `k` (used when splicing a sub-list into
a longer def-before-use list). -/
def SymbolicTiledHloInstruction.shiftPositions (k : Nat) (t : SymbolicTiledHloInstruction) :
    SymbolicTiledHloInstruction :=
  { t with operandPositions := t.operandPositions.map (· + k) }

/-- A placeholder tile (only used as the default of `List.getLastD`). -/
def dummyTile : SymbolicTiledHloInstruction :=
  ⟨.parameter [], [], [], ConstraintExpression.alwaysSatisfied⟩

/-- Modelled from the spec: the reduction derivation rule. The operand
dimensions listed in `reducedDims` take the full (untiled) extent; the other
operand dimensions take the consumer's tile of the corresponding retained
output dimension. -/
def reduceOperandTiles (operandShape : List Nat) (reducedDims : List Nat)
    (outTiles : List DimTile) : List DimTile :=
  operandShape.enum.map (fun p =>
    if p.1 ∈ reducedDims then DimTile.full p.2
    else outTiles.getD ((List.range p.1).countP (fun k => decide (k ∉ reducedDims))) (.full 0))

/-- Modelled from the spec: the broadcast derivation rule. Operand dimension
`k` corresponds to output dimension `dims[k]`; broadcast output dimensions
are dropped from the operand's tile. -/
def broadcastOperandTiles (dims : List Nat) (outTiles : List DimTile) : List DimTile :=
  dims.map (fun d => outTiles.getD d (.full 0))

/-- Modelled from the spec: the transpose derivation rule. Output dimension
`d` reads operand dimension `perm[d]`, so the operand's tile along dimension
`j` is the consumer's tile along the output dimension mapped to `j`. -/
def transposeOperandTiles (operandRank : Nat) (perm : List Nat)
    (outTiles : List DimTile) : List DimTile :=
  (List.range operandRank).map (fun j => outTiles.getD (perm.indexOf j) (.full 0))

/-- The symbolic tile a node contributes for itself once its operands have
been processed; `ts` is the def-before-use list of the operand tiles built
so far (the node's own tile depends on the last tile of each operand). -/
def selfTile (op : HloOp) (dts : List DimTile) (positions : List Nat) :
    SymbolicTiledHloInstruction :=
  { node := op, dimTiles := dts, operandPositions := positions
  , constraint := tileConstraint op.shape dts }

/-- Modelled from the spec: the need-driven consumer-to-producer traversal of
`SymbolicTileAnalysis` construction. Given a node and the tile required of
its output, derive each operand's required tile with the operator-specific
rule, recurse, and append the node's own tile last, yielding a
def-before-use ordered list. Any rule that cannot express the operator as an
affine tile mapping aborts the whole construction with a diagnostic. -/
def buildTiles : HloOp → List DimTile → Except String (List SymbolicTiledHloInstruction)
  | .parameter s, dts => .ok [selfTile (.parameter s) dts []]
  | .unaryElementwise s o, dts =>
    if o.shape = s then
      match buildTiles o dts with
      | .error e => .error e
      | .ok ts => .ok (ts ++ [selfTile (.unaryElementwise s o) dts [ts.length - 1]])
    else .error "elementwise operand shape does not match output shape"
  | .binaryElementwise s l r, dts =>
    if l.shape = s ∧ r.shape = s then
      match buildTiles l dts, buildTiles r dts with
      | .ok lt, .ok rt =>
        .ok (lt ++ rt.map (SymbolicTiledHloInstruction.shiftPositions lt.length) ++
          [selfTile (.binaryElementwise s l r) dts
            [lt.length - 1, lt.length + rt.length - 1]])
      | .error e, _ => .error e
      | _, .error e => .error e
    else .error "elementwise operand shape does not match output shape"
  | .broadcast s dims o, dts =>
    if dims.length = o.shape.length ∧ ∀ d ∈ dims, d < s.length then
      match buildTiles o (broadcastOperandTiles dims dts) with
      | .error e => .error e
      | .ok ts => .ok (ts ++ [selfTile (.broadcast s dims o) dts [ts.length - 1]])
    else .error "malformed broadcast dimensions"
  | .transpose s perm o, dts =>
    if perm.length = s.length ∧ o.shape.length = s.length then
      match buildTiles o (transposeOperandTiles o.shape.length perm dts) with
      | .error e => .error e
      | .ok ts => .ok (ts ++ [selfTile (.transpose s perm o) dts [ts.length - 1]])
    else .error "malformed transpose permutation"
  | .reshape s o, dts =>
    if o.shape = s then
      match buildTiles o dts with
      | .error e => .error e
      | .ok ts => .ok (ts ++ [selfTile (.reshape s o) dts [ts.length - 1]])
    else .error "reshape cannot be expressed as an affine dimension recombination"
  | .reduce s rdims o, dts =>
    match buildTiles o (reduceOperandTiles o.shape rdims dts) with
    | .error e => .error e
    | .ok ts => .ok (ts ++ [selfTile (.reduce s rdims o) dts [ts.length - 1]])

/-! ### Structural invariants of construction -/

/-- Definition-before-use: every position a tile depends on lies strictly
before the tile's own position. -/
def defBeforeUse (ts : List SymbolicTiledHloInstruction) : Prop :=
  ∀ i, (h : i < ts.length) → ∀ j ∈ (ts.get ⟨i, h⟩).operandPositions, j < i

theorem defBeforeUse_concat (ts : List SymbolicTiledHloInstruction)
    (t : SymbolicTiledHloInstruction) (h : defBeforeUse ts)
    (hp : ∀ j ∈ t.operandPositions, j < ts.length) :
    defBeforeUse (ts ++ [t]) := by
  intro i hi j hj
  rw [List.get_eq_getElem] at hj
  rcases Nat.lt_or_ge i ts.length with hlt | hge
  · rw [List.getElem_append_left hlt] at hj
    have := h i hlt j
    rw [List.get_eq_getElem] at this
    exact this hj
  · have hil : i = ts.length := by
      simp only [List.length_append, List.length_cons, List.length_nil] at hi
      omega
    rw [List.getElem_append_right hge] at hj
    have hz : i - ts.length = 0 := by omega
    simp only [hz, List.getElem_cons_zero] at hj
    have := hp j hj
    omega

theorem defBeforeUse_append_shifted (xs ys : List SymbolicTiledHloInstruction)
    (hx : defBeforeUse xs) (hy : defBeforeUse ys) :
    defBeforeUse (xs ++ ys.map (SymbolicTiledHloInstruction.shiftPositions xs.length)) := by
  intro i hi j hj
  rw [List.get_eq_getElem] at hj
  rcases Nat.lt_or_ge i xs.length with hlt | hge
  · rw [List.getElem_append_left hlt] at hj
    have := hx i hlt j
    rw [List.get_eq_getElem] at this
    exact this hj
  · have hlen : i - xs.length < (ys.map (SymbolicTiledHloInstruction.shiftPositions xs.length)).length := by
      simp only [List.length_append, List.length_map] at hi ⊢
      omega
    rw [List.getElem_append_right hge] at hj
    have hylen : i - xs.length < ys.length := by
      simpa using hlen
    simp only [List.getElem_map, SymbolicTiledHloInstruction.shiftPositions,
      List.mem_map] at hj
    obtain ⟨j0, hj0, rfl⟩ := hj
    have := hy (i - xs.length) hylen j0
    rw [List.get_eq_getElem] at this
    have hj0lt := this hj0
    omega

/-- The invariant bundle established by `buildTiles op dts = .ok ts`. -/
structure BuildInv (op : HloOp) (dts : List DimTile)
    (ts : List SymbolicTiledHloInstruction) : Prop where
  nonempty : ts ≠ []
  last_node : (ts.getLastD dummyTile).node = op
  last_dims : (ts.getLastD dummyTile).dimTiles = dts
  constraint_eq : ∀ t ∈ ts, t.constraint = tileConstraint t.node.shape t.dimTiles
  dims_len : dts.length = op.shape.length →
    ∀ t ∈ ts, t.dimTiles.length = t.node.shape.length
  dbu : defBeforeUse ts
  size_le : ∀ t ∈ ts, t.node.nodeSize ≤ op.nodeSize
  count_one : ts.countP (fun t => t.node == op) = 1
  covers : ∀ n ∈ op.subNodes, (∃ t ∈ ts, t.node = n) ∧ n.supported = true

/-- The common final step of every construction case: append the node's own
tile after a prefix that already satisfies the sub-invariants. -/
theorem buildInv_concat_self (op : HloOp) (dts : List DimTile)
    (pre : List SymbolicTiledHloInstruction) (positions : List Nat)
    (tail : List HloOp)
    (h4 : ∀ t ∈ pre, t.constraint = tileConstraint t.node.shape t.dimTiles)
    (h5 : dts.length = op.shape.length →
      ∀ t ∈ pre, t.dimTiles.length = t.node.shape.length)
    (h6 : defBeforeUse pre)
    (h7 : ∀ t ∈ pre, t.node.nodeSize < op.nodeSize)
    (hsub : op.subNodes = op :: tail)
    (hsup : op.supported = true)
    (hcov : ∀ n ∈ tail, (∃ t ∈ pre, t.node = n) ∧ n.supported = true)
    (hpos : ∀ j ∈ positions, j < pre.length) :
    BuildInv op dts (pre ++ [selfTile op dts positions]) := by
  constructor
  · simp
  · rw [List.getLastD_concat]
    rfl
  · rw [List.getLastD_concat]
    rfl
  · intro t ht
    rcases List.mem_append.mp ht with h | h
    · exact h4 t h
    · simp only [List.mem_singleton] at h
      subst h
      rfl
  · intro hd t ht
    rcases List.mem_append.mp ht with h | h
    · exact h5 hd t h
    · simp only [List.mem_singleton] at h
      subst h
      exact hd
  · exact defBeforeUse_concat pre _ h6 hpos
  · intro t ht
    rcases List.mem_append.mp ht with h | h
    · exact Nat.le_of_lt (h7 t h)
    · simp only [List.mem_singleton] at h
      subst h
      exact Nat.le_refl _
  · rw [List.countP_append]
    have hz : pre.countP (fun t => t.node == op) = 0 := by
      apply List.countP_eq_zero.mpr
      intro t ht
      simp only [beq_iff_eq]
      intro hc
      have := h7 t ht
      rw [hc] at this
      omega
    simp [hz, selfTile]
  · intro n hn
    rw [hsub] at hn
    rcases List.mem_cons.mp hn with h | h
    · refine ⟨⟨selfTile op dts positions, by simp, ?_⟩, ?_⟩
      · simp [selfTile, h]
      · rw [h]
        exact hsup
    · obtain ⟨⟨t, ht, rfl⟩, hs⟩ := hcov n h
      exact ⟨⟨t, List.mem_append.mpr (Or.inl ht), rfl⟩, hs⟩

theorem shiftPositions_node (k : Nat) (t : SymbolicTiledHloInstruction) :
    (SymbolicTiledHloInstruction.shiftPositions k t).node = t.node := rfl

theorem shiftPositions_dimTiles (k : Nat) (t : SymbolicTiledHloInstruction) :
    (SymbolicTiledHloInstruction.shiftPositions k t).dimTiles = t.dimTiles := rfl

theorem shiftPositions_constraint (k : Nat) (t : SymbolicTiledHloInstruction) :
    (SymbolicTiledHloInstruction.shiftPositions k t).constraint = t.constraint := rfl

/-- Every successful construction satisfies the invariant bundle. -/
theorem buildTiles_inv (op : HloOp) (dts : List DimTile)
    (ts : List SymbolicTiledHloInstruction)
    (h : buildTiles op dts = .ok ts) : BuildInv op dts ts := by
  induction op generalizing dts ts with
  | parameter s =>
    simp only [buildTiles] at h
    injection h with h
    subst h
    exact buildInv_concat_self (.parameter s) dts [] [] []
      (by simp) (by simp) (fun i hi => absurd hi (Nat.not_lt_zero i))
      (by simp) rfl rfl (by simp) (by simp)
  | unaryElementwise s o ih =>
    simp only [buildTiles] at h
    split at h
    case isTrue hsh =>
      cases heq : buildTiles o dts with
      | error e =>
        rw [heq] at h
        exact Except.noConfusion h
      | ok ts0 =>
        rw [heq] at h
        injection h with h
        subst h
        have hI := ih dts ts0 heq
        have hlen0 := List.length_pos.mpr hI.nonempty
        refine buildInv_concat_self (.unaryElementwise s o) dts ts0 [ts0.length - 1]
          o.subNodes hI.constraint_eq ?_ hI.dbu ?_ rfl ?_ hI.covers ?_
        · intro hd
          refine hI.dims_len ?_
          rw [hsh]
          exact hd
        · intro t ht
          have := hI.size_le t ht
          simp only [HloOp.nodeSize]
          omega
        · simp only [HloOp.supported, decide_eq_true_eq]
          exact hsh
        · intro j hj
          simp only [List.mem_singleton] at hj
          omega
    case isFalse hsh => exact Except.noConfusion h
  | binaryElementwise s l r ihl ihr =>
    simp only [buildTiles] at h
    split at h
    case isTrue hsh =>
      cases heql : buildTiles l dts with
      | error e =>
        rw [heql] at h
        cases heqr : buildTiles r dts with
        | error e2 =>
          rw [heqr] at h
          exact Except.noConfusion h
        | ok rt =>
          rw [heqr] at h
          exact Except.noConfusion h
      | ok lt =>
        cases heqr : buildTiles r dts with
        | error e =>
          rw [heql, heqr] at h
          exact Except.noConfusion h
        | ok rt =>
          rw [heql, heqr] at h
          injection h with h
          subst h
          have hIl := ihl dts lt heql
          have hIr := ihr dts rt heqr
          have hll := List.length_pos.mpr hIl.nonempty
          have hrl := List.length_pos.mpr hIr.nonempty
          refine buildInv_concat_self (.binaryElementwise s l r) dts
            (lt ++ rt.map (SymbolicTiledHloInstruction.shiftPositions lt.length))
            [lt.length - 1, lt.length + rt.length - 1]
            (l.subNodes ++ r.subNodes) ?_ ?_
            (defBeforeUse_append_shifted lt rt hIl.dbu hIr.dbu) ?_ rfl ?_ ?_ ?_
          · intro t ht
            rcases List.mem_append.mp ht with hm | hm
            · exact hIl.constraint_eq t hm
            · obtain ⟨u, hu, rfl⟩ := List.mem_map.mp hm
              exact hIr.constraint_eq u hu
          · intro hd t ht
            rcases List.mem_append.mp ht with hm | hm
            · refine hIl.dims_len ?_ t hm
              rw [hsh.1]
              exact hd
            · obtain ⟨u, hu, rfl⟩ := List.mem_map.mp hm
              refine hIr.dims_len ?_ u hu
              rw [hsh.2]
              exact hd
          · intro t ht
            simp only [HloOp.nodeSize]
            rcases List.mem_append.mp ht with hm | hm
            · have := hIl.size_le t hm
              omega
            · obtain ⟨u, hu, rfl⟩ := List.mem_map.mp hm
              have := hIr.size_le u hu
              rw [shiftPositions_node]
              omega
          · simp only [HloOp.supported, decide_eq_true_eq]
            exact hsh
          · intro n hn
            rcases List.mem_append.mp hn with hm | hm
            · obtain ⟨⟨t, ht, rfl⟩, hs⟩ := hIl.covers n hm
              exact ⟨⟨t, List.mem_append.mpr (Or.inl ht), rfl⟩, hs⟩
            · obtain ⟨⟨t, ht, rfl⟩, hs⟩ := hIr.covers n hm
              refine ⟨⟨SymbolicTiledHloInstruction.shiftPositions lt.length t, ?_, rfl⟩, hs⟩
              exact List.mem_append.mpr (Or.inr (List.mem_map.mpr ⟨t, ht, rfl⟩))
          · intro j hj
            simp only [List.mem_cons, List.mem_singleton, List.not_mem_nil, or_false] at hj
            simp only [List.length_append, List.length_map]
            rcases hj with rfl | rfl
            · omega
            · omega
    case isFalse hsh => exact Except.noConfusion h
  | broadcast s dims o ih =>
    simp only [buildTiles] at h
    split at h
    case isTrue hsh =>
      cases heq : buildTiles o (broadcastOperandTiles dims dts) with
      | error e =>
        rw [heq] at h
        exact Except.noConfusion h
      | ok ts0 =>
        rw [heq] at h
        injection h with h
        subst h
        have hI := ih (broadcastOperandTiles dims dts) ts0 heq
        have hlen0 := List.length_pos.mpr hI.nonempty
        refine buildInv_concat_self (.broadcast s dims o) dts ts0 [ts0.length - 1]
          o.subNodes hI.constraint_eq ?_ hI.dbu ?_ rfl ?_ hI.covers ?_
        · intro hd
          refine hI.dims_len ?_
          simp only [broadcastOperandTiles, List.length_map]
          exact hsh.1
        · intro t ht
          have := hI.size_le t ht
          simp only [HloOp.nodeSize]
          omega
        · simp only [HloOp.supported, decide_eq_true_eq]
          exact hsh
        · intro j hj
          simp only [List.mem_singleton] at hj
          omega
    case isFalse hsh => exact Except.noConfusion h
  | transpose s perm o ih =>
    simp only [buildTiles] at h
    split at h
    case isTrue hsh =>
      cases heq : buildTiles o (transposeOperandTiles o.shape.length perm dts) with
      | error e =>
        rw [heq] at h
        exact Except.noConfusion h
      | ok ts0 =>
        rw [heq] at h
        injection h with h
        subst h
        have hI := ih (transposeOperandTiles o.shape.length perm dts) ts0 heq
        have hlen0 := List.length_pos.mpr hI.nonempty
        refine buildInv_concat_self (.transpose s perm o) dts ts0 [ts0.length - 1]
          o.subNodes hI.constraint_eq ?_ hI.dbu ?_ rfl ?_ hI.covers ?_
        · intro hd
          refine hI.dims_len ?_
          simp [transposeOperandTiles]
        · intro t ht
          have := hI.size_le t ht
          simp only [HloOp.nodeSize]
          omega
        · simp only [HloOp.supported, decide_eq_true_eq]
          exact hsh
        · intro j hj
          simp only [List.mem_singleton] at hj
          omega
    case isFalse hsh => exact Except.noConfusion h
  | reshape s o ih =>
    simp only [buildTiles] at h
    split at h
    case isTrue hsh =>
      cases heq : buildTiles o dts with
      | error e =>
        rw [heq] at h
        exact Except.noConfusion h
      | ok ts0 =>
        rw [heq] at h
        injection h with h
        subst h
        have hI := ih dts ts0 heq
        have hlen0 := List.length_pos.mpr hI.nonempty
        refine buildInv_concat_self (.reshape s o) dts ts0 [ts0.length - 1]
          o.subNodes hI.constraint_eq ?_ hI.dbu ?_ rfl ?_ hI.covers ?_
        · intro hd
          refine hI.dims_len ?_
          rw [hsh]
          exact hd
        · intro t ht
          have := hI.size_le t ht
          simp only [HloOp.nodeSize]
          omega
        · simp only [HloOp.supported, decide_eq_true_eq]
          exact hsh
        · intro j hj
          simp only [List.mem_singleton] at hj
          omega
    case isFalse hsh => exact Except.noConfusion h
  | reduce s rdims o ih =>
    simp only [buildTiles] at h
    cases heq : buildTiles o (reduceOperandTiles o.shape rdims dts) with
    | error e =>
      rw [heq] at h
      exact Except.noConfusion h
    | ok ts0 =>
      rw [heq] at h
      injection h with h
      subst h
      have hI := ih (reduceOperandTiles o.shape rdims dts) ts0 heq
      have hlen0 := List.length_pos.mpr hI.nonempty
      refine buildInv_concat_self (.reduce s rdims o) dts ts0 [ts0.length - 1]
        o.subNodes hI.constraint_eq ?_ hI.dbu ?_ rfl rfl hI.covers ?_
      · intro hd
        refine hI.dims_len ?_
        simp [reduceOperandTiles]
      · intro t ht
        have := hI.size_le t ht
        simp only [HloOp.nodeSize]
        omega
      · intro j hj
        simp only [List.mem_singleton] at hj
        omega

/-! ## The analysis object and its query surface

The structure and the inline accessors below are embedded from the class
declaration in `xla/service/gpu/model/symbolic_tile_analysis.h`; the bodies
of the out-of-line members are modelled from the spec. -/

/-- `SymbolicTileAnalysis`: the symbolic tiled HLO instructions in
def-before-use order, the aggregated constraints, and the deduplicated
collection of tile size maps. -/
structure SymbolicTileAnalysis where
  symbolic_tiled_hlo_instructions : List SymbolicTiledHloInstruction
  constraints_ : ConstraintExpression
  tile_size_maps_ : List (List DimTile)
deriving DecidableEq, Repr

/-- `GetSymbolicTiledHloComputation`: the symbolic tiled HLO instructions in
def-before-use order. -/
def SymbolicTileAnalysis.GetSymbolicTiledHloComputation (a : SymbolicTileAnalysis) :
    List SymbolicTiledHloInstruction :=
  a.symbolic_tiled_hlo_instructions

/-- `GetRoot`: the tiled root instruction, i.e. `.back()` of the stored
def-before-use list. -/
def SymbolicTileAnalysis.GetRoot (a : SymbolicTileAnalysis) : SymbolicTiledHloInstruction :=
  a.symbolic_tiled_hlo_instructions.getLastD dummyTile

/-- `num_tile_parameters`: the dimensionality of the root's output shape. -/
def SymbolicTileAnalysis.num_tile_parameters (a : SymbolicTileAnalysis) : Nat :=
  a.GetRoot.node.shape.length

/-- `GetConstraints`: the intersection of the constraints of all the symbolic
tiles encountered throughout the computation. -/
def SymbolicTileAnalysis.GetConstraints (a : SymbolicTileAnalysis) : ConstraintExpression :=
  a.constraints_

/-- Modelled from the spec: `AnalyzeComputation` (implementation not in the
excerpt). Starting from the identity tile over the root's own output
dimensions, build one symbolic tile per (node, access path); on success the
analysis stores the def-before-use list, the intersection of all tile
constraints, and the deduplicated tile size maps; any failure aborts the
whole analysis with the diagnostic (`FusionDecision`), exposing no partial
result. -/
def AnalyzeComputation (computation : HloOp) : Except String SymbolicTileAnalysis :=
  match buildTiles computation ((List.range computation.shape.length).map DimTile.param) with
  | .error e => .error e
  | .ok ts =>
    .ok { symbolic_tiled_hlo_instructions := ts
        , constraints_ := intersectAll (ts.map (fun t => t.constraint))
        , tile_size_maps_ := (ts.map (fun t => t.dimTiles)).dedup }

/-- Modelled from the spec: `AnalyzeFusion` analyzes an already-fused closed
subgraph; in this model a fusion is handed over as the same access-path tree,
so the construction coincides with `AnalyzeComputation`. -/
def AnalyzeFusion (fusion : HloOp) : Except String SymbolicTileAnalysis :=
  AnalyzeComputation fusion

/-- Modelled from the spec: `ParametersSatisfyConstraints`. A `Tiling` is by
definition a fixed-length vector with one entry per root output dimension;
a parameter vector of any other length (in particular a shorter one) cannot
fully reduce the constraints and yields the explicit "indeterminate" error,
never a concrete true/false. Otherwise the aggregated constraint is
evaluated three-valuedly against the concrete parameters. -/
def SymbolicTileAnalysis.ParametersSatisfyConstraints (a : SymbolicTileAnalysis)
    (tile_parameters : List Int) : Except String Bool :=
  if tile_parameters.length ≠ a.num_tile_parameters then
    .error "indeterminate: too few tile parameters to reduce the constraints to constants"
  else
    match a.constraints_.evalPartial tile_parameters with
    | some b => .ok b
    | none => .error "indeterminate: constraints retain free parameters"

/-- Modelled from the spec: `ParametersSatisfyTritonConstraints` additionally
intersects the analysis-wide constraint with a Triton-specific constraint
before evaluating. -/
def SymbolicTileAnalysis.ParametersSatisfyTritonConstraints (a : SymbolicTileAnalysis)
    (tritonConstraints : ConstraintExpression) (tile_parameters : List Int) :
    Except String Bool :=
  if tile_parameters.length ≠ a.num_tile_parameters then
    .error "indeterminate: too few tile parameters to reduce the constraints to constants"
  else
    match (a.constraints_.and tritonConstraints).evalPartial tile_parameters with
    | some b => .ok b
    | none => .error "indeterminate: constraints retain free parameters"

/-! ## Tile materialization

Modelled from the spec: `ComputeTiledHloInstructions` substitutes a concrete
tiling into every symbolic tile, producing concrete per-node descriptors
(offset/size/stride per dimension), and deduplicates structurally identical
descriptors by a content hash so only one offset-indexing map is computed
and shared. -/

/-- Concrete tile size along one dimension for a given tiling. -/
def DimTile.msize (params : List Int) : DimTile → Int
  | .param i => params.getD i 0
  | .full e => (e : Int)

/-- A concrete tile descriptor: size, stride and symbolic offset (as an
affine function of the tile indices) per dimension. -/
structure TileDescriptor where
  sizes : List Int
  strides : List Int
  offsets : List AffineExpr
deriving DecidableEq, Repr

/-- Materialize the descriptor of one symbolic tile: along dimension `d`, a
parameter-tiled dimension has size `s_i`, stride 1 and offset
`tileIndex_d * s_i`; a full dimension has its whole extent with offset 0. -/
def mkDescriptor (dts : List DimTile) (params : List Int) : TileDescriptor :=
  { sizes := dts.map (DimTile.msize params)
  , strides := dts.map (fun _ => 1)
  , offsets := dts.enum.map (fun p =>
      match p.2 with
      | .param i => singleVar p.1 (params.getD i 0) 0
      | .full _ => ⟨[], 0⟩) }

/-- The content-hash key used for deduplication: operator kind plus the
concrete descriptor. -/
def tileKey (params : List Int) (t : SymbolicTiledHloInstruction) : Nat × TileDescriptor :=
  (t.node.opKind, mkDescriptor t.dimTiles params)

/-- The offset-indexing map computed for a concrete descriptor. -/
def computeOffsetIndexingMap (d : TileDescriptor) : List AffineExpr :=
  d.offsets

/-- A materialized tiled HLO instruction: the node, its concrete tile sizes,
strides and offsets, and (optionally) its tile offset indexing map. -/
structure TiledHloInstruction where
  hlo : HloOp
  tile_sizes : List Int
  tile_strides : List Int
  tile_offsets : List AffineExpr
  tile_offsets_indexing : Option (List AffineExpr)
deriving DecidableEq, Repr

/-- A graph of HLO instructions tiled with concrete tile parameters. -/
structure TiledHloComputation where
  instructions : List TiledHloInstruction
deriving DecidableEq, Repr

/-- The offset indexing map attached to one materialized instruction. If all
offset indexing maps are requested, the map is always computed; otherwise it
is set only for instructions whose content-hash key collides with another
instruction, and the single map computed for the first instruction with that
key is shared by all of them. -/
def offsetIndexingFor (computeAll : Bool) (tiles : List SymbolicTiledHloInstruction)
    (params : List Int) (t : SymbolicTiledHloInstruction) : Option (List AffineExpr) :=
  if computeAll then some (computeOffsetIndexingMap (mkDescriptor t.dimTiles params))
  else if 2 ≤ tiles.countP (fun u => decide (tileKey params u = tileKey params t)) then
    match tiles.find? (fun u => decide (tileKey params u = tileKey params t)) with
    | some u => some (computeOffsetIndexingMap (mkDescriptor u.dimTiles params))
    | none => none
  else none

/-- Materialize one symbolic tile into its concrete tiled instruction. -/
def materializeOne (computeAll : Bool) (tiles : List SymbolicTiledHloInstruction)
    (params : List Int) (t : SymbolicTiledHloInstruction) : TiledHloInstruction :=
  { hlo := t.node
  , tile_sizes := (mkDescriptor t.dimTiles params).sizes
  , tile_strides := (mkDescriptor t.dimTiles params).strides
  , tile_offsets := (mkDescriptor t.dimTiles params).offsets
  , tile_offsets_indexing := offsetIndexingFor computeAll tiles params t }

/-- Modelled from the spec: `ComputeTiledHloInstructions`. A tiling whose
length mismatches the root's dimensionality is rejected with a diagnostic
before any materialization computation; otherwise every stored symbolic tile
is materialized in def-before-use order. The constraints are NOT re-checked
here. -/
def SymbolicTileAnalysis.ComputeTiledHloInstructions (a : SymbolicTileAnalysis)
    (tile_parameters : List Int) (compute_all_tile_offset_indexing_maps : Bool) :
    Except String TiledHloComputation :=
  if tile_parameters.length ≠ a.num_tile_parameters then
    .error "the provided tiling does not match the dimensionality of the root"
  else
    .ok ⟨a.symbolic_tiled_hlo_instructions.map
      (materializeOne compute_all_tile_offset_indexing_maps
        a.symbolic_tiled_hlo_instructions tile_parameters)⟩

/-! ### Lemmas connecting construction, satisfaction and materialization -/

theorem analyzeComputation_inv (op : HloOp) (a : SymbolicTileAnalysis)
    (h : AnalyzeComputation op = .ok a) :
    BuildInv op ((List.range op.shape.length).map DimTile.param)
      a.symbolic_tiled_hlo_instructions ∧
    a.constraints_ = intersectAll (a.symbolic_tiled_hlo_instructions.map
      (fun t => t.constraint)) := by
  unfold AnalyzeComputation at h
  cases heq : buildTiles op ((List.range op.shape.length).map DimTile.param) with
  | error e =>
    rw [heq] at h
    exact Except.noConfusion h
  | ok ts =>
    rw [heq] at h
    injection h with h
    subst h
    exact ⟨buildTiles_inv _ _ _ heq, rfl⟩

theorem analyzeComputation_num_params (op : HloOp) (a : SymbolicTileAnalysis)
    (h : AnalyzeComputation op = .ok a) :
    a.num_tile_parameters = op.shape.length := by
  have hI := (analyzeComputation_inv op a h).1
  unfold SymbolicTileAnalysis.num_tile_parameters SymbolicTileAnalysis.GetRoot
  rw [hI.last_node]

theorem parametersSatisfy_ok_true (a : SymbolicTileAnalysis) (params : List Int)
    (h : a.ParametersSatisfyConstraints params = .ok true) :
    params.length = a.num_tile_parameters ∧
    a.constraints_.holds (fun i => params.getD i 0) = true := by
  unfold SymbolicTileAnalysis.ParametersSatisfyConstraints at h
  split at h
  case isTrue => exact Except.noConfusion h
  case isFalse hne =>
    refine ⟨by omega, ?_⟩
    cases hm : a.constraints_.evalPartial params with
    | none =>
      rw [hm] at h
      exact Except.noConfusion h
    | some b =>
      rw [hm] at h
      injection h with h
      subst h
      by_cases hv : a.constraints_.varsBelow params.length = true
      · unfold ConstraintExpression.evalPartial at hm
        rw [if_pos hv] at hm
        simpa using hm
      · unfold ConstraintExpression.evalPartial at hm
        rw [if_neg hv] at hm
        exact Option.noConfusion hm

theorem mem_zipWith_atoms (shape : List Nat) (dts : List DimTile)
    (p : Nat × DimTile) (hp : p ∈ shape.zip dts) (x : ConstraintAtom)
    (hx : x ∈ dimConstraintAtoms p.1 p.2) :
    x ∈ (List.zipWith dimConstraintAtoms shape dts).flatten := by
  induction shape generalizing dts with
  | nil => simp at hp
  | cons e rest ih =>
    cases dts with
    | nil => simp at hp
    | cons d ds =>
      simp only [List.zip_cons_cons, List.mem_cons] at hp
      simp only [List.zipWith_cons_cons, List.flatten_cons, List.mem_append]
      rcases hp with rfl | hp
      · exact Or.inl hx
      · exact Or.inr (ih ds hp)

theorem tileConstraint_msize_le (shape : List Nat) (dts : List DimTile) (params : List Int)
    (h : (tileConstraint shape dts).holds (fun i => params.getD i 0) = true) :
    ∀ p ∈ shape.zip dts, DimTile.msize params p.2 ≤ (p.1 : Int) := by
  intro p hp
  simp only [tileConstraint, ConstraintExpression.holds, List.any_cons, List.any_nil,
    Bool.or_false, ConjointConstraints.holds, List.all_eq_true] at h
  cases hd : p.2 with
  | param i =>
    have h1 := h ⟨singleVar i (-1) ((p.1 : Nat) : Int), .geZero⟩
      (mem_zipWith_atoms shape dts p hp _ (by rw [hd]; simp [dimConstraintAtoms]))
    simp only [ConstraintAtom.holds, eval_singleVar, decide_eq_true_eq] at h1
    simp only [DimTile.msize]
    omega
  | full e =>
    have h1 := h ⟨⟨[], ((p.1 : Nat) : Int) - (e : Int)⟩, .geZero⟩
      (mem_zipWith_atoms shape dts p hp _ (by rw [hd]; simp [dimConstraintAtoms]))
    simp only [ConstraintAtom.holds, AffineExpr.eval, evalCoeffs, decide_eq_true_eq] at h1
    simp only [DimTile.msize]
    omega

theorem zip_msize_bound (shape : List Nat) (dts : List DimTile) (params : List Int)
    (h : ∀ p ∈ shape.zip dts, DimTile.msize params p.2 ≤ (p.1 : Int)) :
    ∀ q ∈ (dts.map (DimTile.msize params)).zip (shape.map Int.ofNat),
      q.1 ≤ q.2 := by
  induction shape generalizing dts with
  | nil =>
    intro q hq
    simp at hq
  | cons e rest ih =>
    cases dts with
    | nil =>
      intro q hq
      simp at hq
    | cons d ds =>
      intro q hq
      rw [List.map_cons, List.map_cons, List.zip_cons_cons] at hq
      rcases List.mem_cons.mp hq with heq | hq2
      · subst heq
        exact h (e, d) (by simp)
      · refine ih ds ?_ q hq2
        intro p hp
        exact h p (List.mem_cons.mpr (Or.inr hp))

/-! ## Tiling enumeration

Modelled from the spec: `detail::GetGoodTilings` generates, per dimension,
the candidate set {powers of two ≤ dimension size} ∪ {dimension size itself},
forms the cartesian product across dimensions, and keeps only the tilings
accepted by the validity predicate. -/

/-- The candidate tile sizes for one dimension: every power of two strictly
below the dimension size, followed by the dimension size itself (so the set
of candidates is {powers of two ≤ dimension size} ∪ {dimension size}). -/
def possibleTileSizesForOneDimension (dimSize : Nat) : List Nat :=
  (((List.range dimSize).map (fun j => 2 ^ j)).filter (fun x => decide (x < dimSize))) ++
    [dimSize]

/-- Cartesian product of per-dimension candidate lists, dimension-major. -/
def tilingProduct : List (List Nat) → List (List Nat)
  | [] => [[]]
  | xs :: rest => (xs.map (fun x => (tilingProduct rest).map (fun t => x :: t))).flatten

/-- Modelled from the spec: `detail::GetGoodTilings` (implementation not in
the excerpt): candidate generation, cartesian product, filtering through the
validity predicate. -/
def GetGoodTilings (dim_sizes : List Nat) (is_valid : List Nat → Bool) : List (List Nat) :=
  (tilingProduct (dim_sizes.map possibleTileSizesForOneDimension)).filter is_valid

/-- Modelled from the spec: `GetGoodTritonTilings` enumerates tilings for the
root's output shape and filters them through the Triton satisfaction query
(the Triton-specific constraint is supplied by the backend). -/
def SymbolicTileAnalysis.GetGoodTritonTilings (a : SymbolicTileAnalysis)
    (tritonConstraints : ConstraintExpression) : List (List Nat) :=
  GetGoodTilings a.GetRoot.node.shape (fun t =>
    match a.ParametersSatisfyTritonConstraints tritonConstraints
        (t.map Int.ofNat) with
    | .ok b => b
    | .error _ => false)

/-! ### Lemmas about materialization sharing and enumeration -/

/-- A shared offset-indexing map is always the one computed from the
instruction's own descriptor: sharing is unobservable. -/
theorem offsetIndexingFor_false_eq (tiles : List SymbolicTiledHloInstruction)
    (params : List Int) (t : SymbolicTiledHloInstruction) (m : List AffineExpr)
    (hm : offsetIndexingFor false tiles params t = some m) :
    m = computeOffsetIndexingMap (mkDescriptor t.dimTiles params) := by
  unfold offsetIndexingFor at hm
  rw [if_neg (by simp)] at hm
  split at hm
  case isTrue =>
    cases hf : tiles.find? (fun u => decide (tileKey params u = tileKey params t)) with
    | none =>
      rw [hf] at hm
      exact Option.noConfusion hm
    | some u =>
      rw [hf] at hm
      have hp := List.find?_some hf
      simp only [decide_eq_true_eq] at hp
      have hd : mkDescriptor u.dimTiles params = mkDescriptor t.dimTiles params :=
        congrArg Prod.snd hp
      injection hm with hm
      rw [← hm, hd]
  case isFalse => exact Option.noConfusion hm

theorem mem_possibleTileSizes (d : Nat) (hd : 1 ≤ d) (x : Nat) :
    x ∈ possibleTileSizesForOneDimension d ↔
      (((∃ j, x = 2 ^ j) ∧ x ≤ d) ∨ x = d) := by
  unfold possibleTileSizesForOneDimension
  simp only [List.mem_append, List.mem_filter, List.mem_map, List.mem_range,
    List.mem_singleton, decide_eq_true_eq]
  constructor
  · rintro (⟨⟨j, hj, rfl⟩, hlt⟩ | rfl)
    · exact Or.inl ⟨⟨j, rfl⟩, Nat.le_of_lt hlt⟩
    · exact Or.inr rfl
  · rintro (⟨⟨j, rfl⟩, hle⟩ | rfl)
    · rcases Nat.lt_or_ge (2 ^ j) d with hlt | hge
      · refine Or.inl ⟨⟨j, ?_, rfl⟩, hlt⟩
        have := Nat.lt_two_pow j
        omega
      · exact Or.inr (by omega)
    · exact Or.inr rfl

theorem mem_tilingProduct (ls : List (List Nat)) (t : List Nat) :
    t ∈ tilingProduct ls ↔
      (t.length = ls.length ∧ ∀ p ∈ t.zip ls, p.1 ∈ p.2) := by
  induction ls generalizing t with
  | nil =>
    simp only [tilingProduct, List.mem_singleton]
    constructor
    · rintro rfl
      exact ⟨rfl, by simp⟩
    · rintro ⟨hlen, _⟩
      exact List.length_eq_zero.mp hlen
  | cons xs rest ih =>
    simp only [tilingProduct, List.mem_flatten, List.mem_map]
    constructor
    · rintro ⟨l, ⟨x, hx, rfl⟩, ht⟩
      simp only [List.mem_map] at ht
      obtain ⟨t0, ht0, rfl⟩ := ht
      obtain ⟨hlen, hmem⟩ := (ih t0).mp ht0
      refine ⟨by simp [hlen], ?_⟩
      intro p hp
      rw [List.zip_cons_cons] at hp
      rcases List.mem_cons.mp hp with heq | hp2
      · subst heq
        exact hx
      · exact hmem p hp2
    · rintro ⟨hlen, hmem⟩
      cases t with
      | nil => simp at hlen
      | cons x t0 =>
        refine ⟨(tilingProduct rest).map (fun u => x :: u), ⟨x, ?_, rfl⟩, ?_⟩
        · refine hmem (x, xs) ?_
          rw [List.zip_cons_cons]
          exact List.mem_cons_self _ _
        · refine List.mem_map.mpr ⟨t0, (ih t0).mpr ⟨by simpa using hlen, ?_⟩, rfl⟩
          intro p hp
          refine hmem p ?_
          rw [List.zip_cons_cons]
          exact List.mem_cons.mpr (Or.inr hp)

theorem mem_getGoodTilings (dims : List Nat) (valid : List Nat → Bool) (t : List Nat) :
    t ∈ GetGoodTilings dims valid ↔
      (t.length = dims.length ∧
       (∀ p ∈ t.zip dims, p.1 ∈ possibleTileSizesForOneDimension p.2) ∧
       valid t = true) := by
  unfold GetGoodTilings
  rw [List.mem_filter, mem_tilingProduct]
  rw [List.zip_map_right]
  constructor
  · rintro ⟨⟨hlen, hmem⟩, hv⟩
    refine ⟨by simpa using hlen, ?_, hv⟩
    intro p hp
    have := hmem (p.1, possibleTileSizesForOneDimension p.2)
      (List.mem_map.mpr ⟨p, hp, rfl⟩)
    exact this
  · rintro ⟨hlen, hmem, hv⟩
    refine ⟨⟨by simpa using hlen, ?_⟩, hv⟩
    intro p hp
    obtain ⟨q, hq, rfl⟩ := List.mem_map.mp hp
    exact hmem q hq

end XlaGpu

namespace XlaCpu

/-! ## Convolution group decomposition (`EigenConv2D` / `EigenConv3D`)

Embedded from `xla/backends/cpu/runtime/convolution_thunk_internal.h`. Both
kernels split the work into `feature_group_count` groups: the input tensor is
reshaped so its channel dimension becomes
`[feature_group_count, input_channels / feature_group_count]` and group `i`
is selected with `chip(i, ...)`; the kernel and output are reshaped the same
way with `kernel_filters / feature_group_count`. The C++ divisions are
truncating `int64_t` divisions (`Eigen::Index`), modelled with `Int.tdiv`. -/

/-- `input_reshaped_dims` of `EigenConv2D`:
`[input_batch, input_x, input_y, feature_group_count,
input_channels / feature_group_count]`. -/
def eigenConv2DInputReshapedDims (input_batch input_x input_y input_channels
    feature_group_count : Int) : List Int :=
  [input_batch, input_x, input_y, feature_group_count,
    input_channels.tdiv feature_group_count]

/-- `output_reshaped_dims` of `EigenConv2D`:
`[input_batch, output_x, output_y, feature_group_count,
kernel_filters / feature_group_count]`. -/
def eigenConv2DOutputReshapedDims (input_batch output_x output_y kernel_filters
    feature_group_count : Int) : List Int :=
  [input_batch, output_x, output_y, feature_group_count,
    kernel_filters.tdiv feature_group_count]

/-- `input_reshaped_dims` of `EigenConv3D` (channel split is identical to the
2D kernel, one extra spatial dimension). -/
def eigenConv3DInputReshapedDims (input_batch input_x input_y input_z input_channels
    feature_group_count : Int) : List Int :=
  [input_batch, input_x, input_y, input_z, feature_group_count,
    input_channels.tdiv feature_group_count]

/-- `output_reshaped_dims` of `EigenConv3D`. -/
def eigenConv3DOutputReshapedDims (input_batch output_x output_y output_z kernel_filters
    feature_group_count : Int) : List Int :=
  [input_batch, output_x, output_y, output_z, feature_group_count,
    kernel_filters.tdiv feature_group_count]

/-- After the reshape, group `i` of the 2D kernel (`chip(i, 3)` on the input,
`chip(i, 3)` on the reshaped output) touches position `j` of a block of width
`n.tdiv g`: element `i * (n.tdiv g) + j` of the original dimension of extent
`n` (channels for the input chip, filters for the kernel/output chips). -/
def groupElement (n g i j : Int) : Int :=
  i * n.tdiv g + j

/-- The loop `for (i = 0; i < feature_group_count; ++i)` together with the
per-group chips covers element `c` of a dimension of extent `n` exactly when
`c` lies in some group's block. -/
def groupCovered (n g c : Int) : Prop :=
  ∃ i j, 0 ≤ i ∧ i < g ∧ 0 ≤ j ∧ j < n.tdiv g ∧ c = groupElement n g i j

/-- The group decomposition covers a dimension of extent `n` exactly: every
element of `[0, n)` is touched by exactly the union of the group blocks, no
more and no less. -/
def groupsCoverExactly (n g : Int) : Prop :=
  ∀ c, (0 ≤ c ∧ c < n) ↔ groupCovered n g c

/-- `EigenConv2D` group decomposition covers all input channels. -/
def eigenConv2DChannelsCovered (input_channels feature_group_count : Int) : Prop :=
  groupsCoverExactly input_channels feature_group_count

/-- `EigenConv2D` group decomposition covers all output filters. -/
def eigenConv2DFiltersCovered (kernel_filters feature_group_count : Int) : Prop :=
  groupsCoverExactly kernel_filters feature_group_count

/-- `EigenConv3D` group decomposition covers all input channels (the channel
arithmetic of the 3D kernel is identical, via `chip(i, 4)`). -/
def eigenConv3DChannelsCovered (input_channels feature_group_count : Int) : Prop :=
  groupsCoverExactly input_channels feature_group_count

/-- `EigenConv3D` group decomposition covers all output filters. -/
def eigenConv3DFiltersCovered (kernel_filters feature_group_count : Int) : Prop :=
  groupsCoverExactly kernel_filters feature_group_count

/-- The group decomposition of a dimension of positive extent `n` into `g`
groups of width `n.tdiv g` covers the dimension exactly iff `g` is positive
and divides `n` evenly. -/
theorem groupsCoverExactly_iff (n g : Int) (hn : 0 < n) :
    groupsCoverExactly n g ↔ (0 < g ∧ g ∣ n) := by
  constructor
  · intro h
    have hg : 0 < g := by
      by_contra hg
      push_neg at hg
      obtain ⟨i, j, hi0, hig, _, _, _⟩ := (h 0).mp ⟨le_refl 0, hn⟩
      omega
    refine ⟨hg, ?_⟩
    by_contra hnd
    have htd : n.tdiv g = n / g := Int.tdiv_eq_ediv (le_of_lt hn) (le_of_lt hg)
    have hq0 : 0 ≤ n / g := Int.ediv_nonneg (le_of_lt hn) (le_of_lt hg)
    have hle : n / g * g ≤ n := Int.ediv_mul_le n (ne_of_gt hg)
    have hne : n / g * g ≠ n := by
      intro he
      exact hnd ⟨n / g, by linarith [mul_comm (n / g) g]⟩
    have hlt : n / g * g < n := lt_of_le_of_ne hle hne
    obtain ⟨i, j, hi0, hig, hj0, hjq, hc⟩ := (h (n - 1)).mp ⟨by omega, by omega⟩
    rw [htd] at hjq
    unfold groupElement at hc
    rw [htd] at hc
    have hiq : i * (n / g) ≤ (g - 1) * (n / g) :=
      mul_le_mul_of_nonneg_right (by omega) hq0
    nlinarith [hc, hjq, hiq, hlt]
  · rintro ⟨hg, hd⟩
    have htd : n.tdiv g = n / g := Int.tdiv_eq_ediv (le_of_lt hn) (le_of_lt hg)
    have hmul : n / g * g = n := Int.ediv_mul_cancel hd
    have hq0 : 0 < n / g := by
      by_contra hq
      push_neg at hq
      have : n / g * g ≤ 0 := mul_nonpos_of_nonpos_of_nonneg hq (le_of_lt hg)
      omega
    intro c
    constructor
    · rintro ⟨hc0, hcn⟩
      refine ⟨c / (n / g), c % (n / g), ?_, ?_, ?_, ?_, ?_⟩
      · exact Int.ediv_nonneg hc0 (le_of_lt hq0)
      · rw [Int.ediv_lt_iff_lt_mul hq0]
        have : g * (n / g) = n := by linarith [mul_comm g (n / g)]
        omega
      · exact Int.emod_nonneg c (ne_of_gt hq0)
      · rw [htd]
        exact Int.emod_lt_of_pos c hq0
      · unfold groupElement
        rw [htd]
        have h1 := Int.ediv_add_emod c (n / g)
        have h2 : c / (n / g) * (n / g) = n / g * (c / (n / g)) := mul_comm _ _
        omega
    · rintro ⟨i, j, hi0, hig, hj0, hjq, hc⟩
      rw [htd] at hjq
      unfold groupElement at hc
      rw [htd] at hc
      have hiq : i * (n / g) ≤ (g - 1) * (n / g) :=
        mul_le_mul_of_nonneg_right (by omega) (le_of_lt hq0)
      constructor
      · nlinarith [mul_nonneg hi0 (le_of_lt hq0)]
      · nlinarith [hmul]

end XlaCpu

/-! ## Example computations used by the claim witnesses -/

namespace XlaGpu

/-- A small example computation: the root is an elementwise sum of a
parameter and a broadcast parameter, with output shape `[2, 3]`. -/
def exampleOp : HloOp :=
  .binaryElementwise [2, 3] (.parameter [2, 3]) (.broadcast [2, 3] [0] (.parameter [2]))

/-- The analysis of `exampleOp` (construction succeeds on it). -/
def exampleAnalysis : SymbolicTileAnalysis :=
  match AnalyzeComputation exampleOp with
  | .ok a => a
  | .error _ => ⟨[], ConstraintExpression.alwaysSatisfied, []⟩

/-- An example whose two operand tiles are structurally identical, so the
materialization content-hash deduplication actually fires. -/
def exampleDupOp : HloOp :=
  .binaryElementwise [4] (.parameter [4]) (.parameter [4])

/-- The analysis of `exampleDupOp`. -/
def exampleDupAnalysis : SymbolicTileAnalysis :=
  match AnalyzeComputation exampleDupOp with
  | .ok a => a
  | .error _ => ⟨[], ConstraintExpression.alwaysSatisfied, []⟩

/-- The materialization of `exampleDupAnalysis` at the tiling `[4]`. -/
def exampleDupTiled (flag : Bool) : TiledHloComputation :=
  match exampleDupAnalysis.ComputeTiledHloInstructions [4] flag with
  | .ok g => g
  | .error _ => ⟨[]⟩

/-- A computation with a dimension-merging reshape (`[8,16] → [128]`), which
cannot be expressed as an affine dimension recombination: construction must
abort on it. -/
def exampleBadOp : HloOp := .reshape [128] (.parameter [8, 16])

/-! ## Claim theorems -/

/-- C1: for every tiling that `ParametersSatisfyConstraints` reports as
satisfied, `ComputeTiledHloInstructions` succeeds, and every concrete tile
descriptor it produces has, along each dimension, a size that does not
exceed the corresponding node's true output-shape extent in that
dimension. -/
theorem satisfied_tiling_materializes_within_extents
    (op : HloOp) (a : SymbolicTileAnalysis) (params : List Int) (flag : Bool)
    (hA : AnalyzeComputation op = .ok a)
    (hS : a.ParametersSatisfyConstraints params = .ok true) :
    ∃ g, a.ComputeTiledHloInstructions params flag = .ok g ∧
      ∀ instr ∈ g.instructions,
        instr.tile_sizes.length = instr.hlo.shape.length ∧
        ∀ q ∈ instr.tile_sizes.zip (instr.hlo.shape.map Int.ofNat), q.1 ≤ q.2 := by
  obtain ⟨hI, hC⟩ := analyzeComputation_inv op a hA
  obtain ⟨hlen, hholds⟩ := parametersSatisfy_ok_true a params hS
  have hg : a.ComputeTiledHloInstructions params flag =
      .ok ⟨a.symbolic_tiled_hlo_instructions.map
        (materializeOne flag a.symbolic_tiled_hlo_instructions params)⟩ := by
    unfold SymbolicTileAnalysis.ComputeTiledHloInstructions
    rw [if_neg (by omega)]
  refine ⟨_, hg, ?_⟩
  intro instr hin
  obtain ⟨t, ht, rfl⟩ := List.mem_map.mp hin
  have hconstraint : (tileConstraint t.node.shape t.dimTiles).holds
      (fun i => params.getD i 0) = true := by
    have hmem : t.constraint ∈
        a.symbolic_tiled_hlo_instructions.map (fun u => u.constraint) :=
      List.mem_map.mpr ⟨t, ht, rfl⟩
    have hall := (intersectAll_holds
      (a.symbolic_tiled_hlo_instructions.map (fun u => u.constraint))
      (fun i => params.getD i 0)).mp (by rw [← hC]; exact hholds) _ hmem
    rw [hI.constraint_eq t ht] at hall
    exact hall
  constructor
  · have hd := hI.dims_len (by simp) t ht
    simp only [materializeOne, mkDescriptor, List.length_map]
    exact hd
  · have hb := tileConstraint_msize_le t.node.shape t.dimTiles params hconstraint
    exact zip_msize_bound t.node.shape t.dimTiles params hb

/-- Witness for C1 at the example analysis and the tiling `[2, 3]`. -/
theorem satisfied_tiling_materializes_within_extents_witness :
    ∃ g, exampleAnalysis.ComputeTiledHloInstructions [2, 3] false = .ok g ∧
      ∀ instr ∈ g.instructions,
        instr.tile_sizes.length = instr.hlo.shape.length ∧
        ∀ q ∈ instr.tile_sizes.zip (instr.hlo.shape.map Int.ofNat), q.1 ≤ q.2 :=
  satisfied_tiling_materializes_within_extents exampleOp exampleAnalysis [2, 3] false
    (by rfl) (by rfl)

/-- C2: a parameter vector strictly shorter than the root's dimensionality
always makes `ParametersSatisfyConstraints` return an explicit error
("indeterminate"), never a concrete true or false. -/
theorem short_parameter_vector_is_indeterminate (a : SymbolicTileAnalysis)
    (params : List Int) (h : params.length < a.num_tile_parameters) :
    ∃ msg, a.ParametersSatisfyConstraints params = .error msg := by
  unfold SymbolicTileAnalysis.ParametersSatisfyConstraints
  rw [if_pos (by omega)]
  exact ⟨_, rfl⟩

/-- Witness for C2: one parameter against the two-dimensional example root. -/
theorem short_parameter_vector_is_indeterminate_witness :
    ∃ msg, exampleAnalysis.ParametersSatisfyConstraints [2] = .error msg :=
  short_parameter_vector_is_indeterminate exampleAnalysis [2] (by decide)

/-- C3: materialization is a pure function of the analysis, the tiling and
the flag — two calls with the same tiling give identical results — and the
content-hash deduplication never changes the observable per-node results:
with sharing (`compute_all = false`) each node has the same concrete
sizes/strides/offsets as without it, and whenever a (shared) offset-indexing
map is set it is exactly the map the sharing-free run computes. -/
theorem materialization_deterministic_dedup_unobservable
    (a : SymbolicTileAnalysis) (params : List Int) (flag : Bool) :
    a.ComputeTiledHloInstructions params flag =
      a.ComputeTiledHloInstructions params flag ∧
    ∀ g1 g2, a.ComputeTiledHloInstructions params false = .ok g1 →
      a.ComputeTiledHloInstructions params true = .ok g2 →
      g1.instructions.length = g2.instructions.length ∧
      ∀ q ∈ g1.instructions.zip g2.instructions,
        q.1.hlo = q.2.hlo ∧
        q.1.tile_sizes = q.2.tile_sizes ∧
        q.1.tile_strides = q.2.tile_strides ∧
        q.1.tile_offsets = q.2.tile_offsets ∧
        ∀ m, q.1.tile_offsets_indexing = some m →
          q.2.tile_offsets_indexing = some m := by
  refine ⟨rfl, ?_⟩
  intro g1 g2 h1 h2
  unfold SymbolicTileAnalysis.ComputeTiledHloInstructions at h1 h2
  by_cases hg : params.length ≠ a.num_tile_parameters
  · rw [if_pos hg] at h1
    exact Except.noConfusion h1
  · rw [if_neg hg] at h1
    rw [if_neg hg] at h2
    injection h1 with h1
    injection h2 with h2
    subst h1
    subst h2
    refine ⟨by simp, ?_⟩
    intro q hq
    rw [List.zip_map'] at hq
    obtain ⟨t, ht, rfl⟩ := List.mem_map.mp hq
    refine ⟨rfl, rfl, rfl, rfl, ?_⟩
    intro m hm
    have hm' : offsetIndexingFor false a.symbolic_tiled_hlo_instructions params t =
        some m := hm
    have := offsetIndexingFor_false_eq _ _ _ _ hm'
    show offsetIndexingFor true a.symbolic_tiled_hlo_instructions params t = some m
    unfold offsetIndexingFor
    rw [if_pos rfl, this]

/-- Witness for C3 at the deduplicating example and the tiling `[4]`. -/
theorem materialization_deterministic_dedup_unobservable_witness :
    (exampleDupTiled false).instructions.length =
      (exampleDupTiled true).instructions.length ∧
    ∀ q ∈ (exampleDupTiled false).instructions.zip (exampleDupTiled true).instructions,
      q.1.hlo = q.2.hlo ∧
      q.1.tile_sizes = q.2.tile_sizes ∧
      q.1.tile_strides = q.2.tile_strides ∧
      q.1.tile_offsets = q.2.tile_offsets ∧
      ∀ m, q.1.tile_offsets_indexing = some m →
        q.2.tile_offsets_indexing = some m :=
  (materialization_deterministic_dedup_unobservable exampleDupAnalysis [4] false).2
    (exampleDupTiled false) (exampleDupTiled true) (by rfl) (by rfl)

/-- C4: the analysis-wide constraint is the intersection (logical AND) of
the constraints of all symbolic tiles, and the intersection narrows
monotonically: every valuation satisfying the constraint of a tile list
extended by one more tile also satisfies the constraint of the shorter
list. -/
theorem constraints_are_intersection_and_monotone :
    (∀ op a, AnalyzeComputation op = .ok a →
      a.GetConstraints = intersectAll (a.GetSymbolicTiledHloComputation.map
        (fun t => t.constraint))) ∧
    (∀ (ts : List SymbolicTiledHloInstruction) (t : SymbolicTiledHloInstruction)
      (v : Nat → Int),
      (intersectAll ((ts ++ [t]).map (fun u => u.constraint))).holds v = true →
      (intersectAll (ts.map (fun u => u.constraint))).holds v = true) := by
  constructor
  · intro op a h
    exact (analyzeComputation_inv op a h).2
  · intro ts t v h
    rw [intersectAll_holds] at h ⊢
    intro c hc
    refine h c ?_
    rw [List.map_append]
    exact List.mem_append.mpr (Or.inl hc)

/-- Witness for C4: the example analysis, and a one-step extension of a
concrete tile list under the valuation that assigns 1 everywhere. -/
theorem constraints_are_intersection_and_monotone_witness :
    exampleAnalysis.GetConstraints = intersectAll
      (exampleAnalysis.GetSymbolicTiledHloComputation.map (fun t => t.constraint)) ∧
    (intersectAll ([dummyTile].map (fun u => u.constraint))).holds (fun _ => 1) = true :=
  ⟨constraints_are_intersection_and_monotone.1 exampleOp exampleAnalysis (by rfl),
   constraints_are_intersection_and_monotone.2 [dummyTile] dummyTile (fun _ => 1)
     (by decide)⟩

/-- C5: the stored symbolic tiled HLO computation of every successfully
constructed analysis is in definition-before-use order: every position a
tile depends on lies strictly before the tile's own position. -/
theorem tiles_are_def_before_use (op : HloOp) (a : SymbolicTileAnalysis)
    (h : AnalyzeComputation op = .ok a) :
    defBeforeUse a.GetSymbolicTiledHloComputation :=
  ((analyzeComputation_inv op a h).1).dbu

/-- Witness for C5 at the example analysis. -/
theorem tiles_are_def_before_use_witness :
    defBeforeUse exampleAnalysis.GetSymbolicTiledHloComputation :=
  tiles_are_def_before_use exampleOp exampleAnalysis (by rfl)

/-- C6: in every successfully constructed analysis the root node has exactly
one symbolic tile, it occupies the final position of the ordered collection,
and `GetRoot` returns exactly that last element. -/
theorem root_tile_unique_and_last (op : HloOp) (a : SymbolicTileAnalysis)
    (h : AnalyzeComputation op = .ok a) :
    a.GetSymbolicTiledHloComputation ≠ [] ∧
    a.GetRoot = a.GetSymbolicTiledHloComputation.getLastD dummyTile ∧
    a.GetRoot.node = op ∧
    a.GetSymbolicTiledHloComputation.countP (fun t => t.node == op) = 1 := by
  have hI := (analyzeComputation_inv op a h).1
  exact ⟨hI.nonempty, rfl, hI.last_node, hI.count_one⟩

/-- Witness for C6 at the example analysis. -/
theorem root_tile_unique_and_last_witness :
    exampleAnalysis.GetSymbolicTiledHloComputation ≠ [] ∧
    exampleAnalysis.GetRoot =
      exampleAnalysis.GetSymbolicTiledHloComputation.getLastD dummyTile ∧
    exampleAnalysis.GetRoot.node = exampleOp ∧
    exampleAnalysis.GetSymbolicTiledHloComputation.countP
      (fun t => t.node == exampleOp) = 1 :=
  root_tile_unique_and_last exampleOp exampleAnalysis (by rfl)

/-- C7: candidate enumeration generates, per dimension, exactly the set
{powers of two ≤ dimension size} ∪ {dimension size itself}, takes the
cartesian product across dimensions and keeps only the tilings accepted by
the validity predicate; for a single dimension of size 100 the candidates
before filtering are exactly 1, 2, 4, 8, 16, 32, 64 and 100, and never
include 128. -/
theorem enumerate_candidates_powers_of_two :
    (∀ d, 1 ≤ d → ∀ x, x ∈ possibleTileSizesForOneDimension d ↔
      (((∃ j, x = 2 ^ j) ∧ x ≤ d) ∨ x = d)) ∧
    (∀ dims valid t, t ∈ GetGoodTilings dims valid ↔
      (t.length = dims.length ∧
       (∀ p ∈ t.zip dims, p.1 ∈ possibleTileSizesForOneDimension p.2) ∧
       valid t = true)) ∧
    possibleTileSizesForOneDimension 100 = [1, 2, 4, 8, 16, 32, 64, 100] ∧
    (128 ∉ possibleTileSizesForOneDimension 100) := by
  refine ⟨?_, ?_, by decide, by decide⟩
  · intro d hd x
    exact mem_possibleTileSizes d hd x
  · intro dims valid t
    exact mem_getGoodTilings dims valid t

/-- Witness for C7 at dimension size 100 and candidate 64. -/
theorem enumerate_candidates_powers_of_two_witness :
    (64 ∈ possibleTileSizesForOneDimension 100 ↔
      (((∃ j, (64 : Nat) = 2 ^ j) ∧ 64 ≤ 100) ∨ (64 : Nat) = 100)) ∧
    possibleTileSizesForOneDimension 100 = [1, 2, 4, 8, 16, 32, 64, 100] :=
  ⟨enumerate_candidates_powers_of_two.1 100 (by decide) 64,
   enumerate_candidates_powers_of_two.2.2.1⟩

/-- C8: a tiling whose length differs from the root's dimensionality is
rejected by `ComputeTiledHloInstructions` with a diagnostic error before any
materialization computation. -/
theorem mismatched_tiling_rejected (a : SymbolicTileAnalysis) (params : List Int)
    (flag : Bool) (h : params.length ≠ a.num_tile_parameters) :
    ∃ msg, a.ComputeTiledHloInstructions params flag = .error msg := by
  unfold SymbolicTileAnalysis.ComputeTiledHloInstructions
  rw [if_pos h]
  exact ⟨_, rfl⟩

/-- Witness for C8: a three-entry tiling against the two-dimensional
example root. -/
theorem mismatched_tiling_rejected_witness :
    ∃ msg, exampleAnalysis.ComputeTiledHloInstructions [1, 2, 3] false = .error msg :=
  mismatched_tiling_rejected exampleAnalysis [1, 2, 3] false (by decide)

/-- C9: construction is atomic. `AnalyzeComputation` (and `AnalyzeFusion`,
which analyzes the fused subgraph the same way) returns either a fully
usable analysis, in which every reachable node has a symbolic tile and every
reachable operator is affine-expressible, or a diagnostic — the `Except`
result type admits no third outcome and no partial analysis; whenever some
reachable operator cannot be expressed as an affine tile mapping, the whole
analysis aborts with the diagnostic. -/
theorem construction_atomic (op : HloOp) :
    (∀ a, AnalyzeComputation op = .ok a →
      ∀ n ∈ op.subNodes,
        (∃ t ∈ a.GetSymbolicTiledHloComputation, t.node = n) ∧ n.supported = true) ∧
    ((∃ n ∈ op.subNodes, n.supported = false) →
      ∃ msg, AnalyzeComputation op = .error msg) ∧
    AnalyzeFusion op = AnalyzeComputation op := by
  refine ⟨?_, ?_, rfl⟩
  · intro a h n hn
    exact ((analyzeComputation_inv op a h).1).covers n hn
  · rintro ⟨n, hn, hbad⟩
    cases hA : AnalyzeComputation op with
    | error e => exact ⟨e, rfl⟩
    | ok a =>
      have hsup := (((analyzeComputation_inv op a hA).1).covers n hn).2
      rw [hsup] at hbad
      exact absurd hbad (by simp)

/-- Witness for C9: the dimension-merging reshape aborts construction. -/
theorem construction_atomic_witness :
    ∃ msg, AnalyzeComputation exampleBadOp = .error msg :=
  (construction_atomic exampleBadOp).2.1 ⟨exampleBadOp, by decide, by decide⟩

end XlaGpu

namespace XlaCpu

/-- C10: the group decomposition of `EigenConv2D` and `EigenConv3D` computes
`input_channels / feature_group_count` and
`kernel_filters / feature_group_count` with truncating integer division and
no guard (witnessed by `7 / 2 = 3` and `-7 / 2 = -3` in the embedded reshape
dimensions); the per-group reshapes and chips together cover exactly all
input channels and all output filters precisely when `feature_group_count`
is positive and exactly divides both `input_channels` and `kernel_filters`;
and with `feature_group_count = 0` the decomposition covers nothing (the C++
division itself is undefined behaviour there). -/
theorem eigenConv_group_decomposition (ic kf fgc : Int)
    (hic : 0 < ic) (hkf : 0 < kf) :
    ((eigenConv2DChannelsCovered ic fgc ∧ eigenConv2DFiltersCovered kf fgc) ↔
      (0 < fgc ∧ fgc ∣ ic ∧ fgc ∣ kf)) ∧
    ((eigenConv3DChannelsCovered ic fgc ∧ eigenConv3DFiltersCovered kf fgc) ↔
      (0 < fgc ∧ fgc ∣ ic ∧ fgc ∣ kf)) ∧
    (∀ b x y, eigenConv2DInputReshapedDims b x y 7 2 = [b, x, y, 2, 3]) ∧
    (∀ b x y, eigenConv2DInputReshapedDims b x y (-7) 2 = [b, x, y, 2, -3]) ∧
    ¬ groupsCoverExactly ic 0 := by
  have hA := groupsCoverExactly_iff ic fgc hic
  have hB := groupsCoverExactly_iff kf fgc hkf
  have htd7 : (7 : Int).tdiv 2 = 3 := by decide
  have htdm7 : (-7 : Int).tdiv 2 = -3 := by decide
  refine ⟨?_, ?_, ?_, ?_, ?_⟩
  · constructor
    · rintro ⟨ha, hb⟩
      obtain ⟨hp, hq⟩ := hA.mp ha
      obtain ⟨_, hr⟩ := hB.mp hb
      exact ⟨hp, hq, hr⟩
    · rintro ⟨hp, hq, hr⟩
      exact ⟨hA.mpr ⟨hp, hq⟩, hB.mpr ⟨hp, hr⟩⟩
  · constructor
    · rintro ⟨ha, hb⟩
      obtain ⟨hp, hq⟩ := hA.mp ha
      obtain ⟨_, hr⟩ := hB.mp hb
      exact ⟨hp, hq, hr⟩
    · rintro ⟨hp, hq, hr⟩
      exact ⟨hA.mpr ⟨hp, hq⟩, hB.mpr ⟨hp, hr⟩⟩
  · intro b x y
    unfold eigenConv2DInputReshapedDims
    rw [htd7]
  · intro b x y
    unfold eigenConv2DInputReshapedDims
    rw [htdm7]
  · intro h
    obtain ⟨h0, _⟩ := (groupsCoverExactly_iff ic 0 hic).mp h
    exact absurd h0 (lt_irrefl 0)

/-- Witness for C10: 4 input channels, 6 kernel filters, 2 feature groups. -/
theorem eigenConv_group_decomposition_witness :
    ((eigenConv2DChannelsCovered 4 2 ∧ eigenConv2DFiltersCovered 6 2) ↔
      (0 < (2 : Int) ∧ (2 : Int) ∣ 4 ∧ (2 : Int) ∣ 6)) ∧
    ¬ groupsCoverExactly 4 0 :=
  ⟨(eigenConv_group_decomposition 4 6 2 (by decide) (by decide)).1,
   (eigenConv_group_decomposition 4 6 2 (by decide) (by decide)).2.2.2.2⟩

end XlaCpu
